import Mathlib

/-!
Verification of the Telegram-Archive incremental synchronization engine.

This file shallowly embeds the relevant parts of the repository:
  * the batch/checkpoint ingestion loop of `TelegramBackup._backup_dialog`
    together with `Database.insert_messages_batch` and
    `Database.update_sync_status`,
  * the album detection algorithm of `scripts/detect_albums.py`,
  * pinned-message synchronization, media verification, media cleanup,
  * the reaction flattening of `TelegramBackup._commit_batch`,
and proves the specification's claims about them.
-/

namespace TelegramArchive

/-! ## Reaction flattening (`TelegramBackup._commit_batch`, lines 676-691) -/

/-- One extracted reaction, as produced by `_process_message`
(`{"emoji": ..., "count": reaction.count, "user_ids": [...]}`). -/
structure RawReaction where
  emoji : String
  count : Int
  user_ids : List Int
  deriving Repr, DecidableEq

/-- One row inserted into the `reactions` table. -/
structure ReactionRow where
  emoji : String
  user_id : Option Int
  count : Int
  deriving Repr, DecidableEq

/-- The flattening performed by `_commit_batch`: one row with count 1 per known
reactor id, plus an anonymous remainder row when `count - len(user_ids) > 0`;
a single anonymous row carrying the whole count when no reactor ids are known. -/
def flattenReaction (r : RawReaction) : List ReactionRow :=
  if r.user_ids ≠ [] then
    (r.user_ids.map fun u => ⟨r.emoji, some u, 1⟩) ++
      (if r.count - r.user_ids.length > 0 then
        [⟨r.emoji, none, r.count - r.user_ids.length⟩]
      else [])
  else
    [⟨r.emoji, none, r.count⟩]

/-- Sum of the `count` fields of a list of reaction rows. -/
def sumCounts (rows : List ReactionRow) : Int :=
  (rows.map (·.count)).sum

/-! ## Album detection (`scripts/detect_albums.py`, `detect_albums`) -/

/-- A photo/video message as seen by the album-detection scan: id, sender,
timestamp (in seconds, as a rational to allow sub-second deltas) and whether
its `raw_data` already carries a `grouped_id`. -/
structure AMsg where
  id : Int
  sender_id : Option Int
  date : ℚ
  hasGrouped : Bool
  deriving Repr, DecidableEq

/-- Closing a run: a run of length ≥ 2 yields one `(message id, grouped id)`
assignment per member, with the synthetic grouped id equal to the first
member's id; shorter runs yield nothing. -/
def closeAlbum : List AMsg → List (Int × Int)
  | a :: b :: rest => ((a :: b :: rest).map fun m => (m.id, a.id))
  | _ => []

/-- One step of the scan over a chat's ordered photo/video messages.  State is
`(pending grouped-id assignments, current run)`.  An already-tagged message
ends the current run without being re-grouped and — as in the source's
already-tagged branch (detect_albums.py lines 167-174), which only updates
counters and never appends to `pending_updates` — the run it closes is
dropped without receiving assignments; an untagged message joins the run iff
it has the same sender as the run's last member and the absolute timestamp
delta is at most the window, and a run closed by such a mismatch is tagged
via `closeAlbum`. -/
def detectStep (window : ℚ) (st : List (Int × Int) × List AMsg) (m : AMsg) :
    List (Int × Int) × List AMsg :=
  let pending := st.1
  let album := st.2
  if m.hasGrouped then
    (pending, [])
  else
    match album.getLast? with
    | none => (pending, [m])
    | some last =>
      if m.sender_id = last.sender_id ∧ |m.date - last.date| ≤ window then
        (pending, album ++ [m])
      else
        (pending ++ closeAlbum album, [m])

/-- The album-detection scan over one chat's ordered photo/video messages,
returning the `(message id, grouped id)` assignments it records. -/
def detect_albums (window : ℚ) (msgs : List AMsg) : List (Int × Int) :=
  let fin := msgs.foldl (detectStep window) ([], [])
  fin.1 ++ closeAlbum fin.2

/-! ## The messages table and its upsert
(`Database.insert_messages_batch`, `Database._create_schema`) -/

/-- A row of the `messages` table, restricted to its composite primary key
`(id, chat_id)` and a representative payload column. -/
structure MsgRow where
  id : Int
  chat_id : Int
  text : String
  deriving Repr, DecidableEq

/-- The composite primary key `(id, chat_id)` of a message row. -/
def MsgRow.key (m : MsgRow) : Int × Int := (m.id, m.chat_id)

/-- `INSERT OR REPLACE INTO messages` of a single row: any existing row with
the same primary key is replaced. -/
def insertOrReplace (table : List MsgRow) (m : MsgRow) : List MsgRow :=
  table.filter (fun r => decide (r.key ≠ m.key)) ++ [m]

/-- `Database.insert_messages_batch`: `INSERT OR REPLACE` of every row of the
batch, in order, in one transaction. -/
def insert_messages_batch (table : List MsgRow) (batch : List MsgRow) : List MsgRow :=
  batch.foldl insertOrReplace table

/-- Number of rows of the table carrying the given primary key. -/
def keyCount (table : List MsgRow) (k : Int × Int) : Nat :=
  table.countP (fun r => decide (r.key = k))

/-! ## The ingestion loop of `TelegramBackup._backup_dialog` (lines 613-657)

The loop is modelled as a deterministic machine over the incoming message
sequence.  Besides the database state it records a trace of the durable
events it performs (message fetched, batch committed, checkpoint written),
so that crash points between durable actions can be examined. -/

/-- Durable events of one `_backup_dialog` run. -/
inductive Event
  | fetch (m : MsgRow)
  | commit (batch : List MsgRow)
  | checkpoint (maxId : Int) (count : Nat)
  deriving Repr, DecidableEq

/-- The loop state of `_backup_dialog`: the `messages` table, the stored
`sync_status.last_message_id`, and the local variables `batch_data`,
`uncheckpointed_count`, `batches_since_checkpoint`, `running_max_id`. -/
structure DialogState where
  store : List MsgRow
  checkpointId : Int
  batchData : List MsgRow
  uncheckpointedCount : Nat
  batchesSinceCheckpoint : Nat
  runningMaxId : Int
  trace : List Event
  deriving Repr, DecidableEq

/-- Initial state: `last_message_id = db.get_last_message_id(chat_id)` and
`running_max_id = last_message_id`. -/
def initState (store0 : List MsgRow) (lastMessageId : Int) : DialogState :=
  { store := store0, checkpointId := lastMessageId, batchData := [],
    uncheckpointedCount := 0, batchesSinceCheckpoint := 0,
    runningMaxId := lastMessageId, trace := [] }

/-- One iteration of the `async for message in iter_messages(...)` loop:
stage the processed row, raise the running maximum, and when the batch is
full commit it and, every `checkpoint_interval` batches, write the
checkpoint (`db.update_sync_status(chat_id, running_max_id,
uncheckpointed_count)`). -/
def processOne (batchSize checkpointInterval : Nat) (s : DialogState)
    (m : MsgRow) : DialogState :=
  let batchData := s.batchData ++ [m]
  let runningMaxId := max s.runningMaxId m.id
  if batchSize ≤ batchData.length then
    let store := insert_messages_batch s.store batchData
    let unck := s.uncheckpointedCount + batchData.length
    let bsc := s.batchesSinceCheckpoint + 1
    let trace := s.trace ++ [Event.fetch m, Event.commit batchData]
    if checkpointInterval ≤ bsc then
      { store := store, checkpointId := runningMaxId, batchData := [],
        uncheckpointedCount := 0, batchesSinceCheckpoint := 0,
        runningMaxId := runningMaxId,
        trace := trace ++ [Event.checkpoint runningMaxId unck] }
    else
      { store := store, checkpointId := s.checkpointId, batchData := [],
        uncheckpointedCount := unck, batchesSinceCheckpoint := bsc,
        runningMaxId := runningMaxId, trace := trace }
  else
    { s with batchData := batchData, runningMaxId := runningMaxId,
             trace := s.trace ++ [Event.fetch m] }

/-- After the loop: flush the remaining partial batch and write the final
checkpoint when anything is still uncheckpointed. -/
def finishDialog (s : DialogState) : DialogState :=
  let s1 :=
    if s.batchData ≠ [] then
      { s with store := insert_messages_batch s.store s.batchData,
               batchData := [],
               uncheckpointedCount := s.uncheckpointedCount + s.batchData.length,
               trace := s.trace ++ [Event.commit s.batchData] }
    else s
  if 0 < s1.uncheckpointedCount then
    { s1 with checkpointId := s1.runningMaxId, uncheckpointedCount := 0,
              trace := s1.trace ++
                [Event.checkpoint s1.runningMaxId s1.uncheckpointedCount] }
  else s1

/-- The whole per-dialog ingestion (`_backup_dialog` batching section). -/
def backupDialog (batchSize checkpointInterval : Nat) (store0 : List MsgRow)
    (lastMessageId : Int) (msgs : List MsgRow) : DialogState :=
  finishDialog
    (msgs.foldl (processOne batchSize checkpointInterval)
      (initState store0 lastMessageId))

/-- Messages fetched so far, in order. -/
def fetchedOf : List Event → List MsgRow
  | [] => []
  | Event.fetch m :: t => m :: fetchedOf t
  | Event.commit _ :: t => fetchedOf t
  | Event.checkpoint _ _ :: t => fetchedOf t

/-- Messages committed so far, in order. -/
def committedOf : List Event → List MsgRow
  | [] => []
  | Event.fetch _ :: t => committedOf t
  | Event.commit b :: t => b ++ committedOf t
  | Event.checkpoint _ _ :: t => committedOf t

/-- The stored checkpoint after a trace, starting from the given value
(each checkpoint event overwrites the stored `last_message_id`). -/
def lastCkpt (ck0 : Int) : List Event → Int
  | [] => ck0
  | Event.fetch _ :: t => lastCkpt ck0 t
  | Event.commit _ :: t => lastCkpt ck0 t
  | Event.checkpoint v _ :: t => lastCkpt v t

/-- The sequence of checkpoint values written during a trace, in order. -/
def checkpointWrites : List Event → List Int
  | [] => []
  | Event.fetch _ :: t => checkpointWrites t
  | Event.commit _ :: t => checkpointWrites t
  | Event.checkpoint v _ :: t => v :: checkpointWrites t

/-- Committed rows a crash at the end of the trace would make the next run
re-fetch: rows committed in the trace whose id lies above the checkpoint the
trace has stored. -/
def refetchCommitted (ck0 : Int) (t : List Event) : Nat :=
  (committedOf t).countP (fun m => decide (lastCkpt ck0 t < m.id))

/-- The checkpoint-after-commit discipline, scanned left to right with the
accumulated fetched and committed messages: at every checkpoint event, every
message fetched so far has already been committed and is covered by the new
cursor value. -/
def chkOKFrom (fetched committed : List MsgRow) : List Event → Prop
  | [] => True
  | Event.fetch m :: t => chkOKFrom (fetched ++ [m]) committed t
  | Event.commit b :: t => chkOKFrom fetched (committed ++ b) t
  | Event.checkpoint v _ :: t =>
      (∀ m ∈ fetched, m ∈ committed ∧ m.id ≤ v) ∧ chkOKFrom fetched committed t

/-- Successive backup runs for one conversation: each run starts from the
previously stored table and checkpoint; `runSeq` collects every checkpoint
value written, across all runs, in order. -/
def runSeq (batchSize checkpointInterval : Nat) :
    List MsgRow → Int → List (List MsgRow) → List Int
  | _, _, [] => []
  | store, ck, r :: rs =>
    let s := backupDialog batchSize checkpointInterval store ck r
    checkpointWrites s.trace ++
      runSeq batchSize checkpointInterval s.store s.checkpointId rs

/-! ## Pinned-message synchronization
(`TelegramBackup._sync_pinned_messages`, lines 757-788) -/

/-- A message row restricted to the fields pinned-sync touches. -/
structure PMsg where
  id : Int
  chat_id : Int
  is_pinned : Bool
  deriving Repr, DecidableEq

/-- Modelled from the spec: `DatabaseAdapter.sync_pinned_messages` (the module
`src/db/adapter.py` is absent from the tree; per the spec the call performs a
full replace of the conversation's pinned flag set: exactly the given ids are
marked, every other item of the conversation is unmarked). -/
def sync_pinned_messages (db : List PMsg) (chat_id : Int)
    (pinned_ids : List Int) : List PMsg :=
  db.map fun m =>
    if m.chat_id = chat_id then
      { m with is_pinned := decide (m.id ∈ pinned_ids) }
    else m

/-- `TelegramBackup._sync_pinned_messages`: fetch the remote pinned ids and
full-replace; when the remote reports none, clear with the empty set. -/
def syncPinnedRun (db : List PMsg) (chat_id : Int)
    (remote_pinned : List Int) : List PMsg :=
  if remote_pinned ≠ [] then sync_pinned_messages db chat_id remote_pinned
  else sync_pinned_messages db chat_id []

/-! ## Media verification (`TelegramBackup._verify_and_redownload_media`) -/

/-- Classification outcome for a downloaded-media record. -/
inductive VerifyStatus
  | ok
  | missing
  | corrupt
  deriving Repr, DecidableEq

/-- Phase 1 of `_verify_and_redownload_media` (lines 461-483) for one record:
`onDisk` is `none` when the referenced path does not exist and otherwise the
actual size; `expected_size` is the record's `file_size` column. -/
def verifyClassify (onDisk : Option Nat) (expected_size : Option Int) :
    VerifyStatus :=
  match onDisk with
  | none => VerifyStatus.missing
  | some actual =>
    if actual = 0 then VerifyStatus.corrupt
    else
      match expected_size with
      | some e =>
        if 0 < e ∧ (e : ℚ) / 100 < |(actual : ℚ) - (e : ℚ)| then
          VerifyStatus.corrupt
        else VerifyStatus.ok
      | none => VerifyStatus.ok

/-- Repair actions of phase 2 (lines 546-562). -/
inductive RepairAction
  | deleteFile (path : String)
  | redownload
  | recordDownloaded
  deriving Repr, DecidableEq

/-- Phase 2 per-record repair: delete the bad artifact when still on disk,
then re-download; on success the media row is re-inserted with
`downloaded = true`. Returns the action sequence and the recorded
`downloaded` flag. -/
def repairRecord (fileOnDisk : Bool) (path : String) (downloadOk : Bool) :
    List RepairAction × Bool :=
  let del := if fileOnDisk then [RepairAction.deleteFile path] else []
  if downloadOk then
    (del ++ [RepairAction.redownload, RepairAction.recordDownloaded], true)
  else
    (del ++ [RepairAction.redownload], false)

/-! ## Per-conversation media cleanup
(`TelegramBackup._cleanup_existing_media`, lines 1046-1110) -/

/-- A filesystem entry: a real file with a size, or a symbolic link. -/
inductive FsEntry
  | realFile (size : Nat)
  | symlink (target : String)
  deriving Repr, DecidableEq

/-- Filesystem model: an association list from path to entry. -/
abbrev Fs := List (String × FsEntry)

/-- Entry stored at a path, if any. -/
def fsLookup (fs : Fs) (p : String) : Option FsEntry :=
  match fs.find? (fun e => decide (e.1 = p)) with
  | some e => some e.2
  | none => none

/-- Remove the entry at a path (`os.unlink` / `os.remove` remove only the
named entry, never a link's target). -/
def fsErase (fs : Fs) (p : String) : Fs :=
  fs.filter (fun e => decide (e.1 ≠ p))

/-- `os.path.exists`, which follows symbolic links: a link whose target is
missing reports `False`. -/
def pathExists (fs : Fs) (p : String) : Bool :=
  match fsLookup fs p with
  | some (FsEntry.realFile _) => true
  | some (FsEntry.symlink t) =>
    match fsLookup fs t with
    | some (FsEntry.realFile _) => true
    | _ => false
  | none => false

/-- One iteration of the cleanup loop over a media record's `file_path`:
existing symlinks are unlinked without touching their target and without
counting freed bytes; existing real files are removed and their size counted. -/
def cleanupStep (st : Fs × Nat) (p : String) : Fs × Nat :=
  if pathExists st.1 p then
    match fsLookup st.1 p with
    | some (FsEntry.symlink _) => (fsErase st.1 p, st.2)
    | some (FsEntry.realFile sz) => (fsErase st.1 p, st.2 + sz)
    | none => st
  else st

/-- `_cleanup_existing_media`: process every media record path of the chat,
returning the resulting filesystem and the freed byte count. -/
def cleanup_existing_media (fs : Fs) (paths : List String) : Fs × Nat :=
  paths.foldl cleanupStep (fs, 0)

/-! ## Error containment (`TelegramBackup.backup_all` per-dialog loop,
lines 309-333, and `TelegramBackup._process_media` fallback, 1246-1254) -/

/-- Errors a backup run can encounter, at the granularity of the containment
policy. -/
inductive BackupError
  | accessDenied
  | authFailure
  | otherError
  deriving Repr, DecidableEq

/-- The media record produced for one item, reduced to its download flag. -/
structure MediaResult where
  downloaded : Bool
  deriving Repr, DecidableEq

/-- `_process_media`'s outermost try/except: any exception during the
download is caught and a metadata-only record with `downloaded = false` is
returned instead of propagating. -/
def process_media (download : Except Unit MediaResult) : MediaResult :=
  match download with
  | Except.ok r => r
  | Except.error _ => { downloaded := false }

/-- One conversation's ingestion at the granularity claim C8 needs: a
conversation-scoped failure (access denied, or any exception escaping
`_backup_dialog`) if one occurs, and the per-item media download outcomes. -/
structure DialogRun where
  failure : Option BackupError
  items : List (Except Unit MediaResult)

/-- Running one conversation: a conversation-scoped failure propagates out of
`_backup_dialog`; otherwise every item is processed, per-item media errors
being contained by `process_media`. -/
def backupDialogRun (d : DialogRun) : Except BackupError (List MediaResult) :=
  match d.failure with
  | some e => Except.error e
  | none => Except.ok (d.items.map process_media)

/-- The body of `backup_all`'s per-dialog loop: a successful conversation
contributes its message count, a failed one is logged and counted and the
loop moves on. -/
def backupAllStep (acc : Nat × Nat) (d : DialogRun) : Nat × Nat :=
  match backupDialogRun d with
  | Except.ok rs => (acc.1 + rs.length, acc.2)
  | Except.error _ => (acc.1, acc.2 + 1)

/-- `backup_all`'s structure: authentication happens before the per-dialog
loop and its failure aborts the run; inside the loop every conversation is
wrapped in try/except that catches access errors and any other exception and
continues.  Returns `(total items processed, conversations failed)`. -/
def backup_all (authOk : Bool) (dialogs : List DialogRun) :
    Except BackupError (Nat × Nat) :=
  if authOk then
    Except.ok (dialogs.foldl backupAllStep (0, 0))
  else Except.error BackupError.authFailure

/-! ## Edit/deletion reconciliation
(`TelegramBackup._sync_deletions_and_edits`, lines 693-755) -/

/-- A local message row as the reconciliation pass sees it. -/
structure LMsg where
  id : Int
  chat_id : Int
  text : String
  edit_date : Option String
  deriving Repr, DecidableEq

/-- The current remote state of a message. -/
structure RMsg where
  message : String
  edit_date : Option String
  deriving Repr, DecidableEq

/-- Python's `str(...)` applied to the stored edit date (`str(None)` is
`"None"`). -/
def strOfOpt : Option String → String
  | none => "None"
  | some s => s

/-- One reconciliation step for a locally known id: a `None` remote result
deletes the local row (`db.delete_message`, modelled from the spec: the
adapter module is absent); a remote edit timestamp whose string form differs
from the snapshotted local one overwrites text and edit timestamp
(`db.update_message_text`, modelled from the spec); otherwise the row is
left unchanged. -/
def syncStep (chat_id : Int) (db : List LMsg) (msgId : Int)
    (localEdit : Option String) (remote : Option RMsg) : List LMsg :=
  match remote with
  | none => db.filter fun m => decide (¬(m.chat_id = chat_id ∧ m.id = msgId))
  | some r =>
    match r.edit_date with
    | some re =>
      if re ≠ strOfOpt localEdit then
        db.map fun m =>
          if m.chat_id = chat_id ∧ m.id = msgId then
            { m with text := r.message, edit_date := some re }
          else m
      else db
    | none => db

/-- `_sync_deletions_and_edits`: snapshot the chat's local ids and edit
dates, then reconcile each against the fetched remote state. -/
def sync_deletions_and_edits (chat_id : Int) (db : List LMsg)
    (fetch : Int → Option RMsg) : List LMsg :=
  let snapshot := db.filter fun m => decide (m.chat_id = chat_id)
  snapshot.foldl
    (fun acc m => syncStep chat_id acc m.id m.edit_date (fetch m.id)) db

/-! ## Helper lemmas -/

theorem sumCounts_append (a b : List ReactionRow) :
    sumCounts (a ++ b) = sumCounts a + sumCounts b := by
  simp [sumCounts]

theorem sumCounts_userRows (e : String) (us : List Int) :
    sumCounts (us.map fun u => ⟨e, some u, 1⟩) = us.length := by
  induction us with
  | nil => simp [sumCounts]
  | cons a t ih =>
    simp only [List.map_cons, sumCounts, List.sum_cons] at ih ⊢
    rw [ih]
    simp only [List.length_cons]
    push_cast
    ring

/-! ## Claim theorems -/

/-- C10: the reaction flattening of `_commit_batch` preserves aggregate
counts: whenever the reported count is at least the number of known reactor
ids, the counts of the inserted rows (one row of count 1 per reactor, plus an
anonymous remainder row when positive) sum to the reported count; with no
known reactor ids a single anonymous row carries the full count. -/
theorem commit_batch_reaction_flattening (r : RawReaction) :
    ((r.user_ids.length : Int) ≤ r.count →
      sumCounts (flattenReaction r) = r.count) ∧
    (r.user_ids = [] →
      flattenReaction r = [⟨r.emoji, none, r.count⟩]) := by
  constructor
  · intro h
    by_cases hu : r.user_ids = []
    · simp [flattenReaction, hu, sumCounts]
    · by_cases hr : r.count - r.user_ids.length > 0
      · simp only [flattenReaction, if_pos hu, if_pos hr]
        rw [sumCounts_append, sumCounts_userRows]
        simp [sumCounts]
      · simp only [flattenReaction, if_pos hu, if_neg hr]
        rw [sumCounts_append, sumCounts_userRows]
        simp only [sumCounts, List.map_nil, List.sum_nil, add_zero]
        omega
  · intro hu
    simp [flattenReaction, hu]

/-- C10 witness: a reaction with count 5 and three known reactors flattens to
rows whose counts sum to 5. -/
theorem commit_batch_reaction_flattening_witness :
    ((([1, 2, 3] : List Int).length : Int) ≤ 5) ∧
      sumCounts (flattenReaction ⟨"+1", 5, [1, 2, 3]⟩) = 5 :=
  ⟨by decide, (commit_batch_reaction_flattening ⟨"+1", 5, [1, 2, 3]⟩).1 (by decide)⟩

/-- C4 (amended): in album detection, an untagged item joins the current run
iff it has the same sender as the run's last item and its timestamp delta is
within the window; a run of length ≥ 2 that is closed by a sender/timestamp
mismatch (or by the end of the scan) is tagged via `closeAlbum` with the
first item's id; singletons stay untagged; an already-tagged item ends the
run without being re-grouped, and the run it closes is dropped without being
tagged; for one sender at times t, t+1.5s, t+5s with window 2s the first two
items receive the first item's id and the third stays untagged. -/
theorem detect_albums_spec :
    (∀ (window : ℚ) (pending : List (Int × Int)) (album : List AMsg)
        (last m : AMsg),
        album.getLast? = some last → m.hasGrouped = false →
        ((detectStep window (pending, album) m).2 = album ++ [m] ↔
          (m.sender_id = last.sender_id ∧ |m.date - last.date| ≤ window))) ∧
    (∀ (a b : AMsg) (rest : List AMsg),
        closeAlbum (a :: b :: rest) = (a :: b :: rest).map fun m => (m.id, a.id)) ∧
    (∀ a : AMsg, closeAlbum [a] = []) ∧
    (∀ (window : ℚ) (pending : List (Int × Int)) (album : List AMsg)
        (last m : AMsg),
        album.getLast? = some last → m.hasGrouped = false →
        ¬(m.sender_id = last.sender_id ∧ |m.date - last.date| ≤ window) →
        detectStep window (pending, album) m =
          (pending ++ closeAlbum album, [m])) ∧
    (∀ (window : ℚ) (pending : List (Int × Int)) (album : List AMsg) (m : AMsg),
        m.hasGrouped = true →
        detectStep window (pending, album) m = (pending, [])) ∧
    detect_albums 2
      [⟨1, some 7, 0, false⟩, ⟨2, some 7, 3 / 2, false⟩, ⟨3, some 7, 5, false⟩]
      = [(1, 1), (2, 1)] := by
  refine ⟨?_, ?_, ?_, ?_, ?_, ?_⟩
  · intro window pending album last m hlast hg
    have halb : album ≠ [] := by
      intro h
      rw [h] at hlast
      simp [List.getLast?] at hlast
    simp only [detectStep, hg, Bool.false_eq_true, if_false, hlast]
    by_cases hcond : m.sender_id = last.sender_id ∧ |m.date - last.date| ≤ window
    · simp [hcond]
    · simp only [if_neg hcond]
      constructor
      · intro heq
        exfalso
        have := congrArg List.length heq
        simp at this
        exact halb this
      · intro hc
        exact absurd hc hcond
  · intro a b rest
    rfl
  · intro a
    rfl
  · intro window pending album last m hlast hg hcond
    simp only [detectStep, hg, Bool.false_eq_true, if_false, hlast]
    rw [if_neg hcond]
  · intro window pending album m hg
    simp [detectStep, hg]
  · norm_num [detect_albums, detectStep, closeAlbum, abs_le]

/-- C4 witness: with a run currently ending at the item sent at time 0, the
item from the same sender at time 1.5s (window 2s) joins the run. -/
theorem detect_albums_spec_witness :
    (detectStep 2 ([], [⟨1, some 7, 0, false⟩]) ⟨2, some 7, 3 / 2, false⟩).2
      = [⟨1, some 7, 0, false⟩] ++ [⟨2, some 7, 3 / 2, false⟩] :=
  (detect_albums_spec.1 2 [] [⟨1, some 7, 0, false⟩] ⟨1, some 7, 0, false⟩
      ⟨2, some 7, 3 / 2, false⟩ rfl rfl).mpr (by norm_num [abs_le])

/-- C4 counterexample to the claim as stated: a same-sender within-window
untagged run of length 2 that is closed by an already-tagged item receives no
grouped-id assignment at all — the source's already-tagged branch
(detect_albums.py lines 167-174) only updates counters and never appends the
closed run to `pending_updates`, so the run of length ≥ 2 stays untagged
although the claim says it is tagged with the first item's id. -/
theorem detect_albums_dropped_run_counterexample :
    detect_albums 2
      [⟨1, some 7, 0, false⟩, ⟨2, some 7, 1, false⟩, ⟨3, some 7, 2, true⟩]
      = [] := by
  norm_num [detect_albums, detectStep, closeAlbum, abs_le]

/-- C6: media verification classifies a record as ok iff the path exists with
positive size and, when a positive expected size is known, the size deviation
is within 1%; a missing path classifies as missing, a 0-byte or
out-of-tolerance file as corrupt (in particular size 0 with expected 500);
every record entering the repair pass gets the bad artifact deleted before
the re-download, and `downloaded = true` is recorded on success. -/
theorem verify_and_redownload_media_spec :
    (∀ (onDisk : Option Nat) (es : Option Int),
        verifyClassify onDisk es = VerifyStatus.ok ↔
          (∃ a, onDisk = some a ∧ 0 < a ∧
            ∀ e, es = some e → 0 < e → |(a : ℚ) - (e : ℚ)| ≤ (e : ℚ) / 100)) ∧
    (∀ es, verifyClassify none es = VerifyStatus.missing) ∧
    (∀ es, verifyClassify (some 0) es = VerifyStatus.corrupt) ∧
    (∀ (a : Nat) (e : Int), 0 < a → 0 < e →
        (e : ℚ) / 100 < |(a : ℚ) - (e : ℚ)| →
        verifyClassify (some a) (some e) = VerifyStatus.corrupt) ∧
    verifyClassify (some 0) (some 500) = VerifyStatus.corrupt ∧
    (∀ (fileOnDisk : Bool) (p : String),
        repairRecord fileOnDisk p true =
          ((if fileOnDisk then [RepairAction.deleteFile p] else []) ++
            [RepairAction.redownload, RepairAction.recordDownloaded], true)) := by
  refine ⟨?_, ?_, ?_, ?_, ?_, ?_⟩
  · intro onDisk es
    match onDisk with
    | none => simp [verifyClassify]
    | some a =>
      by_cases ha : a = 0
      · subst ha
        simp [verifyClassify]
      · match es with
        | none =>
          simp only [verifyClassify, if_neg ha]
          constructor
          · intro _
            exact ⟨a, rfl, Nat.pos_of_ne_zero ha, by intro e he; cases he⟩
          · intro _
            trivial
        | some e =>
          simp only [verifyClassify, if_neg ha]
          by_cases hc : 0 < e ∧ (e : ℚ) / 100 < |(a : ℚ) - (e : ℚ)|
          · simp only [if_pos hc]
            constructor
            · intro h
              cases h
            · rintro ⟨a', ha', hpos, htol⟩
              cases ha'
              exact absurd hc.2 (not_lt.mpr (htol e rfl hc.1))
          · simp only [if_neg hc]
            constructor
            · intro _
              refine ⟨a, rfl, Nat.pos_of_ne_zero ha, ?_⟩
              rintro e' he' hpos
              cases he'
              by_contra hgt
              exact hc ⟨hpos, lt_of_not_le hgt⟩
            · intro _
              trivial
  · intro es
    rfl
  · intro es
    rfl
  · intro a e hpos hepos htol
    have ha : a ≠ 0 := Nat.pos_iff_ne_zero.mp hpos
    simp [verifyClassify, ha, if_pos (And.intro hepos htol)]
  · rfl
  · intro fileOnDisk p
    cases fileOnDisk <;> rfl

/-- C6 witness: a file of 1000 bytes against an expected size of 500 deviates
by more than 1% and is classified corrupt. -/
theorem verify_and_redownload_media_spec_witness :
    verifyClassify (some 1000) (some 500) = VerifyStatus.corrupt :=
  (verify_and_redownload_media_spec.2.2.2.1) 1000 500 (by norm_num) (by norm_num)
    (by norm_num)

theorem syncPinnedRun_eq (db : List PMsg) (chat_id : Int) (remote : List Int) :
    syncPinnedRun db chat_id remote = sync_pinned_messages db chat_id remote := by
  by_cases h : remote = []
  · subst h
    simp [syncPinnedRun]
  · simp [syncPinnedRun, h]

/-- C5: pinned-message synchronization is a full replace of the local pinned
set: afterwards an item of the conversation is pinned iff its id is in the
remotely reported pinned set (so an empty remote set clears every pinned
flag), items of other conversations are untouched, and local pinned {1,2}
with remote pinned {2,3} yields local pinned {2,3} exactly. -/
theorem sync_pinned_full_replace (db : List PMsg) (chat_id : Int)
    (remote : List Int) :
    (∀ m ∈ syncPinnedRun db chat_id remote,
        m.chat_id = chat_id → (m.is_pinned = true ↔ m.id ∈ remote)) ∧
    (∀ m ∈ db, m.chat_id ≠ chat_id → m ∈ syncPinnedRun db chat_id remote) ∧
    (remote = [] → ∀ m ∈ syncPinnedRun db chat_id remote,
        m.chat_id = chat_id → m.is_pinned = false) ∧
    ((syncPinnedRun [⟨1, 5, true⟩, ⟨2, 5, true⟩, ⟨3, 5, false⟩] 5 [2, 3]).filter
        (·.is_pinned)).map (·.id) = [2, 3] := by
  rw [syncPinnedRun_eq]
  have hmem : ∀ m ∈ sync_pinned_messages db chat_id remote,
      m.chat_id = chat_id → (m.is_pinned = true ↔ m.id ∈ remote) := by
    intro m hm hc
    rw [sync_pinned_messages, List.mem_map] at hm
    obtain ⟨y, hy, hmy⟩ := hm
    by_cases hyc : y.chat_id = chat_id
    · rw [if_pos hyc] at hmy
      subst hmy
      simp
    · rw [if_neg hyc] at hmy
      subst hmy
      exact absurd hc hyc
  refine ⟨hmem, ?_, ?_, ?_⟩
  · intro m hm hc
    rw [sync_pinned_messages, List.mem_map]
    exact ⟨m, hm, if_neg hc⟩
  · intro hrem m hm hc
    have := (hmem m hm hc)
    rw [hrem] at this
    simp at this
    exact this
  · rw [syncPinnedRun_eq]
    decide

/-- C5 witness: with local items 1 (pinned), 2 (pinned), 3 (unpinned) and a
remote pinned set {2,3}, item 2 of the conversation ends up pinned iff its id
is remotely pinned. -/
theorem sync_pinned_full_replace_witness :
    (⟨2, 5, true⟩ : PMsg).is_pinned = true ↔
      (⟨2, 5, true⟩ : PMsg).id ∈ ([2, 3] : List Int) :=
  (sync_pinned_full_replace [⟨1, 5, true⟩, ⟨2, 5, true⟩, ⟨3, 5, false⟩] 5
      [2, 3]).1 ⟨2, 5, true⟩ (by decide) (by decide)

theorem fsLookup_fsErase (fs : Fs) (p q : String) (h : q ≠ p) :
    fsLookup (fsErase fs p) q = fsLookup fs q := by
  induction fs with
  | nil => rfl
  | cons e t ih =>
    simp only [fsLookup, fsErase, List.filter_cons] at ih ⊢
    by_cases hp : e.1 = p
    · have hq : (decide (e.1 = q) : Bool) = false := by
        simp only [decide_eq_false_iff_not]
        intro hh
        exact h (by rw [← hh, hp])
      rw [if_neg (by simp [hp]), List.find?_cons, hq]
      exact ih
    · rw [if_pos (by simp [hp]), List.find?_cons, List.find?_cons]
      cases hq : (decide (e.1 = q) : Bool)
      · exact ih
      · rfl

theorem cleanupStep_untouched (st : Fs × Nat) (p q : String) (h : q ≠ p) :
    fsLookup (cleanupStep st p).1 q = fsLookup st.1 q := by
  rw [cleanupStep]
  by_cases he : pathExists st.1 p = true
  · rw [if_pos he]
    match hl : fsLookup st.1 p with
    | some (FsEntry.symlink t) => exact fsLookup_fsErase st.1 p q h
    | some (FsEntry.realFile sz) => exact fsLookup_fsErase st.1 p q h
    | none => rfl
  · rw [if_neg he]

theorem cleanup_foldl_untouched (paths : List String) (q : String)
    (h : q ∉ paths) :
    ∀ st : Fs × Nat, fsLookup (paths.foldl cleanupStep st).1 q = fsLookup st.1 q := by
  induction paths with
  | nil => intro st; rfl
  | cons p t ih =>
    intro st
    have hq : q ≠ p := fun hh => h (hh ▸ List.mem_cons_self p t)
    have ht : q ∉ t := fun hh => h (List.mem_cons_of_mem p hh)
    rw [List.foldl_cons, ih ht, cleanupStep_untouched st p q hq]

/-- C7: per-conversation media cleanup never deletes a canonical blob: any
path not among the conversation's reference paths is untouched (so a
symlink's target in the shared store survives), a symlink reference is
removed link-only without counting freed bytes, and only real files are
deleted and counted toward bytes freed. -/
theorem cleanup_existing_media_safe (fs : Fs) (paths : List String) :
    (∀ q, q ∉ paths →
        fsLookup (cleanup_existing_media fs paths).1 q = fsLookup fs q) ∧
    (∀ p t, p ∈ paths → fsLookup fs p = some (FsEntry.symlink t) →
        t ∉ paths →
        fsLookup (cleanup_existing_media fs paths).1 t = fsLookup fs t) ∧
    (∀ (f : Fs) (n : Nat) (p t : String),
        fsLookup f p = some (FsEntry.symlink t) → pathExists f p = true →
        cleanupStep (f, n) p = (fsErase f p, n)) ∧
    (∀ (f : Fs) (n : Nat) (p : String) (sz : Nat),
        fsLookup f p = some (FsEntry.realFile sz) →
        cleanupStep (f, n) p = (fsErase f p, n + sz)) := by
  refine ⟨?_, ?_, ?_, ?_⟩
  · intro q hq
    exact cleanup_foldl_untouched paths q hq (fs, 0)
  · intro p t _ _ ht
    exact cleanup_foldl_untouched paths t ht (fs, 0)
  · intro f n p t hl he
    rw [cleanupStep]
    simp only [if_pos he, hl]
  · intro f n p sz hl
    have he : pathExists f p = true := by
      rw [pathExists, hl]
    rw [cleanupStep]
    simp only [if_pos he, hl]

/-- C7 witness: cleaning the conversation's single symlink reference leaves
the canonical blob in the shared store untouched. -/
theorem cleanup_existing_media_safe_witness :
    fsLookup (cleanup_existing_media
        [("media/5/a.jpg", FsEntry.symlink "media/_shared/a.jpg"),
         ("media/_shared/a.jpg", FsEntry.realFile 100)]
        ["media/5/a.jpg"]).1 "media/_shared/a.jpg"
      = fsLookup
        [("media/5/a.jpg", FsEntry.symlink "media/_shared/a.jpg"),
         ("media/_shared/a.jpg", FsEntry.realFile 100)] "media/_shared/a.jpg" :=
  (cleanup_existing_media_safe
      [("media/5/a.jpg", FsEntry.symlink "media/_shared/a.jpg"),
       ("media/_shared/a.jpg", FsEntry.realFile 100)]
      ["media/5/a.jpg"]).2.1 "media/5/a.jpg" "media/_shared/a.jpg"
    (by decide) (by decide) (by decide)

theorem backup_all_foldl (dialogs : List DialogRun) :
    ∀ a b : Nat,
      dialogs.foldl backupAllStep (a, b)
      = (a + (((dialogs.filter fun d => decide (d.failure = none)).map
            fun d => d.items.length).sum),
         b + (dialogs.filter fun d => decide (d.failure ≠ none)).length) := by
  induction dialogs with
  | nil => intro a b; simp
  | cons d t ih =>
    intro a b
    rw [List.foldl_cons]
    cases hf : d.failure with
    | none =>
      have hstep : backupAllStep (a, b) d = (a + d.items.length, b) := by
        rw [backupAllStep, backupDialogRun, hf]
        simp
      rw [hstep, ih]
      simp [List.filter_cons, hf, Nat.add_assoc]
    | some e =>
      have hstep : backupAllStep (a, b) d = (a, b + 1) := by
        rw [backupAllStep, backupDialogRun, hf]
      rw [hstep, ih]
      simp only [List.filter_cons, hf, Prod.mk.injEq]
      simp
      omega

/-- C8: error containment: a per-item media failure is swallowed by
`_process_media`'s fallback and never aborts the conversation (every item of
a non-failing conversation yields a record), a per-conversation failure —
access denied included — never aborts the run (the loop counts the failure
and continues, so the result still accounts for every other conversation),
and only an authentication failure aborts the whole run. -/
theorem backup_all_error_containment :
    (process_media (Except.error ()) = { downloaded := false }) ∧
    (∀ d : DialogRun, d.failure = none →
        backupDialogRun d = Except.ok (d.items.map process_media)) ∧
    (∀ dialogs : List DialogRun,
        backup_all true dialogs =
          Except.ok
            ((((dialogs.filter fun d => decide (d.failure = none)).map
                fun d => d.items.length).sum),
             (dialogs.filter fun d => decide (d.failure ≠ none)).length)) ∧
    (∀ dialogs, backup_all false dialogs =
        Except.error BackupError.authFailure) := by
  refine ⟨rfl, ?_, ?_, ?_⟩
  · intro d hd
    rw [backupDialogRun, hd]
  · intro dialogs
    rw [backup_all, if_pos rfl, backup_all_foldl]
    simp
  · intro dialogs
    rfl

/-- C8 witness: a conversation whose single item's media download fails is
still ingested in full, its item carrying the `downloaded = false` fallback
record. -/
theorem backup_all_error_containment_witness :
    backupDialogRun ⟨none, [Except.error ()]⟩ =
      Except.ok ([Except.error ()].map process_media) :=
  backup_all_error_containment.2.1 ⟨none, [Except.error ()]⟩ rfl

/-! ## Lemmas about the ingestion machine's trace -/

theorem prefix_snoc_iff {α : Type} {t l : List α} {e : α} :
    t <+: l ++ [e] ↔ t <+: l ∨ t = l ++ [e] := by
  constructor
  · rintro ⟨r, hr⟩
    rcases List.eq_nil_or_concat r with rfl | ⟨r', e', rfl⟩
    · right
      simpa using hr
    · left
      refine ⟨r', ?_⟩
      rw [List.concat_eq_append, ← List.append_assoc] at hr
      exact (List.append_inj' hr rfl).1
  · rintro (⟨r, rfl⟩ | rfl)
    · exact ⟨r ++ [e], by rw [List.append_assoc]⟩
    · exact List.prefix_refl _

theorem foldl_inv {σ α : Type} (P : σ → Prop) (f : σ → α → σ)
    (hstep : ∀ s a, P s → P (f s a)) :
    ∀ (l : List α) (s : σ), P s → P (l.foldl f s) := by
  intro l
  induction l with
  | nil => intro s h; exact h
  | cons a t ih => intro s h; exact ih _ (hstep s a h)

@[simp] theorem fetchedOf_append (a b : List Event) :
    fetchedOf (a ++ b) = fetchedOf a ++ fetchedOf b := by
  induction a with
  | nil => rfl
  | cons e t ih => cases e <;> simp [fetchedOf, ih]

@[simp] theorem committedOf_append (a b : List Event) :
    committedOf (a ++ b) = committedOf a ++ committedOf b := by
  induction a with
  | nil => rfl
  | cons e t ih => cases e <;> simp [committedOf, ih]

theorem lastCkpt_append (ck : Int) (a b : List Event) :
    lastCkpt ck (a ++ b) = lastCkpt (lastCkpt ck a) b := by
  induction a generalizing ck with
  | nil => rfl
  | cons e t ih => cases e <;> simp [lastCkpt, ih]

@[simp] theorem checkpointWrites_append (a b : List Event) :
    checkpointWrites (a ++ b) = checkpointWrites a ++ checkpointWrites b := by
  induction a with
  | nil => rfl
  | cons e t ih => cases e <;> simp [checkpointWrites, ih]

theorem chkOKFrom_append (a : List Event) :
    ∀ (f c : List MsgRow) (b : List Event),
      chkOKFrom f c (a ++ b) ↔
        chkOKFrom f c a ∧ chkOKFrom (f ++ fetchedOf a) (c ++ committedOf a) b := by
  induction a with
  | nil => intro f c b; simp [chkOKFrom, fetchedOf, committedOf]
  | cons e t ih =>
    intro f c b
    cases e with
    | fetch m =>
      simp only [List.cons_append, chkOKFrom, fetchedOf, committedOf, List.append_eq]
      rw [ih]
      simp [List.append_assoc]
    | commit bt =>
      simp only [List.cons_append, chkOKFrom, fetchedOf, committedOf, List.append_eq]
      rw [ih]
      simp [List.append_assoc]
    | checkpoint v n =>
      simp only [List.cons_append, chkOKFrom, fetchedOf, committedOf, List.append_eq]
      rw [ih]
      tauto

/-! ## Lemmas about the upsert -/

theorem keyCount_insertOrReplace (t : List MsgRow) (m : MsgRow) (k : Int × Int) :
    keyCount (insertOrReplace t m) k = if k = m.key then 1 else keyCount t k := by
  rw [keyCount, insertOrReplace, List.countP_append]
  by_cases h : k = m.key
  · subst h
    rw [if_pos rfl]
    have h0 : List.countP (fun r => decide (r.key = m.key))
        (t.filter fun r => decide (r.key ≠ m.key)) = 0 := by
      rw [List.countP_eq_zero]
      intro a ha
      have := List.of_mem_filter ha
      simp at this ⊢
      exact this
    rw [h0]
    simp
  · rw [if_neg h, keyCount]
    have hmk : ¬ m.key = k := fun hh => h hh.symm
    have h1 : List.countP (fun r => decide (r.key = k)) [m] = 0 := by
      simp [hmk]
    rw [h1, Nat.add_zero]
    induction t with
    | nil => rfl
    | cons a t ih =>
      rw [List.filter_cons]
      by_cases ha : a.key = m.key
      · rw [if_neg (by simp [ha])]
        have hak : ¬ a.key = k := fun hh => h (by rw [← hh, ha])
        rw [List.countP_cons, ih]
        simp [hak]
      · rw [if_pos (by simp [ha])]
        rw [List.countP_cons, List.countP_cons, ih]

theorem keyCount_batch (bs : List MsgRow) :
    ∀ (t : List MsgRow) (k : Int × Int),
      keyCount (insert_messages_batch t bs) k =
        if k ∈ bs.map MsgRow.key then 1 else keyCount t k := by
  induction bs with
  | nil => intro t k; simp [insert_messages_batch]
  | cons b bs ih =>
    intro t k
    rw [insert_messages_batch, List.foldl_cons,
      show List.foldl insertOrReplace (insertOrReplace t b) bs
        = insert_messages_batch (insertOrReplace t b) bs from rfl, ih]
    by_cases hk : k ∈ bs.map MsgRow.key
    · rw [if_pos hk, if_pos (by simp [List.mem_cons]; right; simpa using hk)]
    · rw [if_neg hk, keyCount_insertOrReplace]
      by_cases hb : k = b.key
      · rw [if_pos hb, if_pos (by simp [List.mem_cons, hb])]
      · rw [if_neg hb, if_neg (by
          simp only [List.map_cons, List.mem_cons]
          rintro (h | h)
          · exact hb h
          · exact hk h)]

/-! ## Step-equation lemmas for the ingestion machine -/

theorem processOne_small (batchSize ci : Nat) (s : DialogState) (m : MsgRow)
    (h1 : ¬ batchSize ≤ (s.batchData ++ [m]).length) :
    processOne batchSize ci s m =
      { s with batchData := s.batchData ++ [m],
               runningMaxId := max s.runningMaxId m.id,
               trace := s.trace ++ [Event.fetch m] } := by
  simp only [processOne]
  rw [if_neg h1]

theorem processOne_commit_ck (batchSize ci : Nat) (s : DialogState) (m : MsgRow)
    (h1 : batchSize ≤ (s.batchData ++ [m]).length)
    (h2 : ci ≤ s.batchesSinceCheckpoint + 1) :
    processOne batchSize ci s m =
      { store := insert_messages_batch s.store (s.batchData ++ [m]),
        checkpointId := max s.runningMaxId m.id,
        batchData := [],
        uncheckpointedCount := 0,
        batchesSinceCheckpoint := 0,
        runningMaxId := max s.runningMaxId m.id,
        trace := s.trace ++ [Event.fetch m, Event.commit (s.batchData ++ [m]),
          Event.checkpoint (max s.runningMaxId m.id)
            (s.uncheckpointedCount + (s.batchData ++ [m]).length)] } := by
  simp only [processOne]
  rw [if_pos h1, if_pos h2]
  simp

theorem processOne_commit_nock (batchSize ci : Nat) (s : DialogState) (m : MsgRow)
    (h1 : batchSize ≤ (s.batchData ++ [m]).length)
    (h2 : ¬ ci ≤ s.batchesSinceCheckpoint + 1) :
    processOne batchSize ci s m =
      { store := insert_messages_batch s.store (s.batchData ++ [m]),
        checkpointId := s.checkpointId,
        batchData := [],
        uncheckpointedCount := s.uncheckpointedCount + (s.batchData ++ [m]).length,
        batchesSinceCheckpoint := s.batchesSinceCheckpoint + 1,
        runningMaxId := max s.runningMaxId m.id,
        trace := s.trace ++ [Event.fetch m, Event.commit (s.batchData ++ [m])] } := by
  simp only [processOne]
  rw [if_pos h1, if_neg h2]

theorem getLast_snoc {α : Type} (a v : α) (l : List α) :
    (a :: (l ++ [v])).getLast (List.cons_ne_nil _ _) = v := by
  have h1 : (a :: (l ++ [v])).getLast? = some v := by
    rw [show a :: (l ++ [v]) = (a :: l) ++ [v] by simp, List.getLast?_concat]
  rw [List.getLast?_eq_getLast _ (List.cons_ne_nil _ _)] at h1
  exact Option.some_inj.mp h1

theorem chain'_le_snoc (a : Int) (l : List Int) (v : Int)
    (h : List.Chain' (· ≤ ·) (a :: l))
    (hv : (a :: l).getLast (List.cons_ne_nil _ _) ≤ v) :
    List.Chain' (· ≤ ·) (a :: (l ++ [v])) := by
  rw [show a :: (l ++ [v]) = (a :: l) ++ [v] by simp, List.chain'_append]
  refine ⟨h, List.chain'_singleton _, ?_⟩
  intro x hx y hy
  rw [List.getLast?_eq_getLast _ (List.cons_ne_nil _ _)] at hx
  have hxe : (a :: l).getLast (List.cons_ne_nil _ _) = x := by simpa using hx
  have hye : v = y := by simpa using hy
  rw [← hxe, ← hye]
  exact hv

theorem chain'_le_append_cons (a : Int) (l₁ l₂ : List Int)
    (h₁ : List.Chain' (· ≤ ·) (a :: l₁))
    (h₂ : List.Chain' (· ≤ ·)
      ((a :: l₁).getLast (List.cons_ne_nil _ _) :: l₂)) :
    List.Chain' (· ≤ ·) (a :: (l₁ ++ l₂)) := by
  rw [show a :: (l₁ ++ l₂) = (a :: l₁) ++ l₂ by simp, List.chain'_append]
  refine ⟨h₁, (List.chain'_cons'.mp h₂).2, ?_⟩
  intro x hx y hy
  rw [List.getLast?_eq_getLast _ (List.cons_ne_nil _ _)] at hx
  have hxe : (a :: l₁).getLast (List.cons_ne_nil _ _) = x := by simpa using hx
  rw [← hxe]
  exact (List.chain'_cons'.mp h₂).1 y hy

/-- Run invariant of the ingestion machine: the fetched messages are exactly
the committed ones plus the staged batch, ids are bounded by the running
maximum, the stored checkpoint is the last written value, every checkpoint
event was justified by prior commits, and the written checkpoint values form
a non-decreasing chain from the initial cursor. -/
structure RunInv (ck0 : Int) (s : DialogState) : Prop where
  acct : fetchedOf s.trace = committedOf s.trace ++ s.batchData
  fmax : ∀ m ∈ fetchedOf s.trace, m.id ≤ s.runningMaxId
  ck_le : s.checkpointId ≤ s.runningMaxId
  just : chkOKFrom [] [] s.trace
  chain : List.Chain' (· ≤ ·) (ck0 :: checkpointWrites s.trace)
  ck_last : s.checkpointId =
    (ck0 :: checkpointWrites s.trace).getLast (List.cons_ne_nil _ _)

theorem runInv_init (store0 : List MsgRow) (ck0 : Int) :
    RunInv ck0 (initState store0 ck0) := by
  refine ⟨rfl, ?_, le_refl _, trivial, ?_, rfl⟩
  · intro m hm
    simp [initState, fetchedOf] at hm
  · simp [initState, checkpointWrites]

theorem runInv_processOne (batchSize ci : Nat) (ck0 : Int) (s : DialogState)
    (m : MsgRow) (h : RunInv ck0 s) :
    RunInv ck0 (processOne batchSize ci s m) := by
  obtain ⟨acct, fmax, ck_le, just, chain, ck_last⟩ := h
  by_cases h1 : batchSize ≤ (s.batchData ++ [m]).length
  · by_cases h2 : ci ≤ s.batchesSinceCheckpoint + 1
    · rw [processOne_commit_ck batchSize ci s m h1 h2]
      have hacct : fetchedOf s.trace ++ [m] =
          committedOf s.trace ++ (s.batchData ++ [m]) := by
        rw [acct, List.append_assoc]
      refine ⟨?_, ?_, le_refl _, ?_, ?_, ?_⟩
      · simp only [fetchedOf_append, committedOf_append, fetchedOf, committedOf]
        simpa using hacct
      · intro x hx
        simp only [fetchedOf_append, fetchedOf, List.mem_append,
          List.mem_singleton, List.mem_cons] at hx
        rcases hx with hx | hx
        · exact le_trans (fmax x hx) (le_max_left _ _)
        · rcases hx with rfl | hx
          · exact le_max_right _ _
          · cases hx
      · rw [chkOKFrom_append]
        refine ⟨just, ?_⟩
        simp only [chkOKFrom, List.append_nil, List.nil_append]
        refine ⟨?_, trivial⟩
        intro x hx
        rw [hacct] at hx
        refine ⟨hx, ?_⟩
        rw [← hacct] at hx
        simp only [List.mem_append, List.mem_singleton] at hx
        rcases hx with hx | rfl
        · exact le_trans (fmax x hx) (le_max_left _ _)
        · exact le_max_right _ _
      · simp only [checkpointWrites_append, checkpointWrites]
        exact chain'_le_snoc ck0 _ _ chain (ck_last ▸ le_trans ck_le (le_max_left _ _))
      · simp only [checkpointWrites_append, checkpointWrites]
        rw [getLast_snoc]
    · rw [processOne_commit_nock batchSize ci s m h1 h2]
      have hacct : fetchedOf s.trace ++ [m] =
          committedOf s.trace ++ (s.batchData ++ [m]) := by
        rw [acct, List.append_assoc]
      refine ⟨?_, ?_, le_trans ck_le (le_max_left _ _), ?_, ?_, ?_⟩
      · simp only [fetchedOf_append, committedOf_append, fetchedOf, committedOf]
        simpa using hacct
      · intro x hx
        simp only [fetchedOf_append, fetchedOf, List.mem_append,
          List.mem_singleton, List.mem_cons] at hx
        rcases hx with hx | hx
        · exact le_trans (fmax x hx) (le_max_left _ _)
        · rcases hx with rfl | hx
          · exact le_max_right _ _
          · cases hx
      · rw [chkOKFrom_append]
        exact ⟨just, trivial⟩
      · simpa only [checkpointWrites_append, checkpointWrites,
          List.append_nil] using chain
      · simpa only [checkpointWrites_append, checkpointWrites,
          List.append_nil] using ck_last
  · rw [processOne_small batchSize ci s m h1]
    refine ⟨?_, ?_, le_trans ck_le (le_max_left _ _), ?_, ?_, ?_⟩
    · simp only [fetchedOf_append, committedOf_append, fetchedOf, committedOf]
      rw [acct]
      simp [List.append_assoc]
    · intro x hx
      simp only [fetchedOf_append, fetchedOf, List.mem_append,
        List.mem_singleton, List.mem_cons] at hx
      rcases hx with hx | hx
      · exact le_trans (fmax x hx) (le_max_left _ _)
      · rcases hx with rfl | hx
        · exact le_max_right _ _
        · cases hx
    · rw [chkOKFrom_append]
      exact ⟨just, trivial⟩
    · simpa only [checkpointWrites_append, checkpointWrites,
        List.append_nil] using chain
    · simpa only [checkpointWrites_append, checkpointWrites,
        List.append_nil] using ck_last

theorem runInv_flush (ck0 : Int) (s : DialogState) (h : RunInv ck0 s) :
    RunInv ck0
      { s with store := insert_messages_batch s.store s.batchData,
               batchData := [],
               uncheckpointedCount := s.uncheckpointedCount + s.batchData.length,
               trace := s.trace ++ [Event.commit s.batchData] } := by
  obtain ⟨acct, fmax, ck_le, just, chain, ck_last⟩ := h
  refine ⟨?_, ?_, ck_le, ?_, ?_, ?_⟩
  · simp only [fetchedOf_append, committedOf_append, fetchedOf, committedOf]
    rw [acct]
    simp
  · intro x hx
    simp only [fetchedOf_append, fetchedOf, List.append_nil] at hx
    exact fmax x hx
  · rw [chkOKFrom_append]
    exact ⟨just, trivial⟩
  · simpa only [checkpointWrites_append, checkpointWrites,
      List.append_nil] using chain
  · simpa only [checkpointWrites_append, checkpointWrites,
      List.append_nil] using ck_last

theorem runInv_finalck (ck0 : Int) (s : DialogState) (h : RunInv ck0 s)
    (hbd : s.batchData = []) :
    RunInv ck0
      { s with checkpointId := s.runningMaxId, uncheckpointedCount := 0,
               trace := s.trace ++
                 [Event.checkpoint s.runningMaxId s.uncheckpointedCount] } := by
  obtain ⟨acct, fmax, ck_le, just, chain, ck_last⟩ := h
  rw [hbd, List.append_nil] at acct
  refine ⟨?_, ?_, le_refl _, ?_, ?_, ?_⟩
  · simp only [fetchedOf_append, committedOf_append, fetchedOf, committedOf,
      List.append_nil, hbd]
    exact acct
  · intro x hx
    simp only [fetchedOf_append, fetchedOf, List.append_nil] at hx
    exact fmax x hx
  · rw [chkOKFrom_append]
    refine ⟨just, ?_⟩
    simp only [chkOKFrom, List.append_nil, List.nil_append]
    refine ⟨?_, trivial⟩
    intro x hx
    rw [acct] at hx
    exact ⟨hx, fmax x (acct ▸ hx)⟩
  · simp only [checkpointWrites_append, checkpointWrites]
    exact chain'_le_snoc ck0 _ _ chain (ck_last ▸ ck_le)
  · simp only [checkpointWrites_append, checkpointWrites]
    rw [getLast_snoc]

theorem runInv_finish (ck0 : Int) (s : DialogState) (h : RunInv ck0 s) :
    RunInv ck0 (finishDialog s) := by
  rw [finishDialog]
  by_cases hb : s.batchData ≠ []
  · simp only [if_pos hb]
    have h1 := runInv_flush ck0 s h
    by_cases hu : 0 < s.uncheckpointedCount + s.batchData.length
    · simp only [if_pos hu]
      exact runInv_finalck ck0 _ h1 rfl
    · simp only [if_neg hu]
      exact h1
  · simp only [if_neg hb]
    by_cases hu : 0 < s.uncheckpointedCount
    · simp only [if_pos hu]
      have hbd : s.batchData = [] := not_not.mp hb
      exact runInv_finalck ck0 s h hbd
    · simp only [if_neg hu]
      exact h

theorem runInv_backupDialog (batchSize ci : Nat) (store0 : List MsgRow)
    (ck0 : Int) (msgs : List MsgRow) :
    RunInv ck0 (backupDialog batchSize ci store0 ck0 msgs) := by
  rw [backupDialog]
  exact runInv_finish ck0 _
    (foldl_inv (RunInv ck0) (processOne batchSize ci)
      (fun s a hs => runInv_processOne batchSize ci ck0 s a hs) msgs _
      (runInv_init store0 ck0))

/-- C2: the stored per-conversation checkpoint never decreases: each run
starts its running maximum from the previously stored checkpoint, only
raises it by `max` with the seen ids, and `update_sync_status` overwrites
the stored value with that running maximum, so across any sequence of runs
the written checkpoint values form a non-decreasing chain from the initial
stored value. -/
theorem checkpoint_monotone (batchSize checkpointInterval : Nat)
    (store0 : List MsgRow) (ck0 : Int) (runs : List (List MsgRow)) :
    List.Chain' (· ≤ ·)
      (ck0 :: runSeq batchSize checkpointInterval store0 ck0 runs) := by
  induction runs generalizing store0 ck0 with
  | nil => simp [runSeq]
  | cons r rs ih =>
    rw [runSeq]
    have hinv := runInv_backupDialog batchSize checkpointInterval store0 ck0 r
    exact chain'_le_append_cons ck0 _ _ hinv.chain
      (hinv.ck_last ▸ ih _ _)

/-- C3: the checkpoint is advanced only after the corresponding commits: at
every checkpoint event of a `_backup_dialog` run's trace, every message
fetched before the event has already been committed before it, and the new
cursor value covers all of them. -/
theorem checkpoint_after_commit (batchSize checkpointInterval : Nat)
    (store0 : List MsgRow) (ck0 : Int) (msgs : List MsgRow)
    (t₁ t₂ : List Event) (v : Int) (c : Nat)
    (h : (backupDialog batchSize checkpointInterval store0 ck0 msgs).trace
        = t₁ ++ Event.checkpoint v c :: t₂) :
    ∀ m ∈ fetchedOf t₁, m ∈ committedOf t₁ ∧ m.id ≤ v := by
  have hj : chkOKFrom [] [] (t₁ ++ Event.checkpoint v c :: t₂) :=
    h ▸ (runInv_backupDialog batchSize checkpointInterval store0 ck0 msgs).just
  rw [chkOKFrom_append] at hj
  have h2 := hj.2
  simp only [List.nil_append, chkOKFrom] at h2
  exact h2.1

/-- C3 witness: in a concrete run over three messages with batch size 2 and
checkpoint interval 1, the first fetched message is already committed before
the first checkpoint event and its id is covered by that cursor value. -/
theorem checkpoint_after_commit_witness :
    (⟨1, 10, "a"⟩ : MsgRow) ∈ committedOf
        [Event.fetch ⟨1, 10, "a"⟩, Event.fetch ⟨2, 10, "b"⟩,
         Event.commit [⟨1, 10, "a"⟩, ⟨2, 10, "b"⟩]] ∧
      (⟨1, 10, "a"⟩ : MsgRow).id ≤ 2 :=
  checkpoint_after_commit 2 1 [] 0
    [⟨1, 10, "a"⟩, ⟨2, 10, "b"⟩, ⟨3, 10, "c"⟩]
    [Event.fetch ⟨1, 10, "a"⟩, Event.fetch ⟨2, 10, "b"⟩,
     Event.commit [⟨1, 10, "a"⟩, ⟨2, 10, "b"⟩]]
    [Event.fetch ⟨3, 10, "c"⟩, Event.commit [⟨3, 10, "c"⟩],
     Event.checkpoint 3 1]
    2 2 rfl ⟨1, 10, "a"⟩ (by decide)

/-! ## Crash-safety of checkpointing under checkpoint interval 1 -/

theorem refetch_fetch (ck0 : Int) (t : List Event) (m : MsgRow) :
    refetchCommitted ck0 (t ++ [Event.fetch m]) = refetchCommitted ck0 t := by
  simp [refetchCommitted, lastCkpt_append, lastCkpt, committedOf]

theorem refetch_commit (ck0 : Int) (t : List Event) (b : List MsgRow) :
    refetchCommitted ck0 (t ++ [Event.commit b]) =
      refetchCommitted ck0 t +
        b.countP (fun m => decide (lastCkpt ck0 t < m.id)) := by
  simp [refetchCommitted, lastCkpt_append, lastCkpt, List.countP_append,
    committedOf]

theorem refetch_ck_zero (ck0 : Int) (t : List Event) (v : Int) (n : Nat)
    (h : ∀ m ∈ committedOf t, m.id ≤ v) :
    refetchCommitted ck0 (t ++ [Event.checkpoint v n]) = 0 := by
  simp only [refetchCommitted, lastCkpt_append, lastCkpt, committedOf_append,
    committedOf, List.append_nil]
  rw [List.countP_eq_zero]
  intro m hm
  simp only [decide_eq_true_eq, not_lt]
  exact h m hm

/-- Crash-safety invariant of the ingestion machine under checkpoint
interval 1: at every crash point (trace prefix) at most one batch of
committed messages lies above the stored checkpoint. -/
structure CkInv (batchSize : Nat) (ck0 : Int) (s : DialogState) : Prop where
  prefixes : ∀ t, t <+: s.trace → refetchCommitted ck0 t ≤ batchSize
  full : refetchCommitted ck0 s.trace = 0
  buf : s.batchData.length < batchSize
  cmax : ∀ m ∈ committedOf s.trace, m.id ≤ s.runningMaxId
  bmax : ∀ m ∈ s.batchData, m.id ≤ s.runningMaxId
  unck : s.uncheckpointedCount = 0

theorem ckInv_init (batchSize : Nat) (hbs : 1 ≤ batchSize)
    (store0 : List MsgRow) (ck0 : Int) :
    CkInv batchSize ck0 (initState store0 ck0) := by
  refine ⟨?_, rfl, hbs, ?_, ?_, rfl⟩
  · intro t ht
    have h0 : t = [] := List.prefix_nil.mp ht
    subst h0
    simp [refetchCommitted, committedOf]
  · intro m hm
    simp [initState, committedOf] at hm
  · intro m hm
    simp [initState] at hm

theorem ckInv_processOne (batchSize : Nat) (ck0 : Int) (s : DialogState)
    (m : MsgRow) (h : CkInv batchSize ck0 s) :
    CkInv batchSize ck0 (processOne batchSize 1 s m) := by
  obtain ⟨prefixes, full, buf, cmax, bmax, unck⟩ := h
  by_cases h1 : batchSize ≤ (s.batchData ++ [m]).length
  · have h2 : (1 : Nat) ≤ s.batchesSinceCheckpoint + 1 := Nat.le_add_left 1 _
    rw [processOne_commit_ck batchSize 1 s m h1 h2]
    have hblen : (s.batchData ++ [m]).length ≤ batchSize := by
      simp only [List.length_append, List.length_singleton]
      omega
    have hbmax : ∀ x ∈ s.batchData ++ [m], x.id ≤ max s.runningMaxId m.id := by
      intro x hx
      rcases List.mem_append.mp hx with hx | hx
      · exact le_trans (bmax x hx) (le_max_left _ _)
      · rw [List.mem_singleton] at hx
        subst hx
        exact le_max_right _ _
    have hcommits : ∀ x ∈ committedOf
        ((s.trace ++ [Event.fetch m]) ++ [Event.commit (s.batchData ++ [m])]),
        x.id ≤ max s.runningMaxId m.id := by
      intro x hx
      simp only [committedOf_append, committedOf, List.append_nil,
        List.nil_append, List.mem_append] at hx
      rcases hx with hx | hx
      · exact le_trans (cmax x hx) (le_max_left _ _)
      · exact hbmax x (List.mem_append.mpr hx)
    have htr : s.trace ++ [Event.fetch m, Event.commit (s.batchData ++ [m]),
          Event.checkpoint (max s.runningMaxId m.id)
            (s.uncheckpointedCount + (s.batchData ++ [m]).length)]
        = ((s.trace ++ [Event.fetch m]) ++ [Event.commit (s.batchData ++ [m])])
          ++ [Event.checkpoint (max s.runningMaxId m.id)
            (s.uncheckpointedCount + (s.batchData ++ [m]).length)] := by
      simp
    refine ⟨?_, ?_, ?_, ?_, ?_, rfl⟩
    · intro t ht
      rw [htr] at ht
      rcases prefix_snoc_iff.mp ht with ht | rfl
      · rcases prefix_snoc_iff.mp ht with ht | rfl
        · rcases prefix_snoc_iff.mp ht with ht | rfl
          · exact prefixes t ht
          · rw [refetch_fetch, full]
            exact Nat.zero_le _
        · rw [refetch_commit, refetch_fetch, full, Nat.zero_add]
          exact le_trans (List.countP_le_length _) hblen
      · rw [refetch_ck_zero _ _ _ _ hcommits]
        exact Nat.zero_le _
    · rw [htr, refetch_ck_zero _ _ _ _ hcommits]
    · simpa using Nat.lt_of_le_of_lt (Nat.zero_le _) buf
    · intro x hx
      rw [htr] at hx
      simp only [committedOf_append, committedOf, List.append_nil,
        List.nil_append, List.mem_append] at hx
      rcases hx with hx | hx
      · exact le_trans (cmax x hx) (le_max_left _ _)
      · exact hbmax x (List.mem_append.mpr hx)
    · intro x hx
      cases hx
  · rw [processOne_small batchSize 1 s m h1]
    refine ⟨?_, ?_, ?_, ?_, ?_, unck⟩
    · intro t ht
      rcases prefix_snoc_iff.mp ht with ht | rfl
      · exact prefixes t ht
      · rw [refetch_fetch, full]
        exact Nat.zero_le _
    · rw [refetch_fetch]
      exact full
    · simp only [List.length_append, List.length_singleton] at h1 ⊢
      omega
    · intro x hx
      rw [committedOf_append] at hx
      simp only [committedOf, List.append_nil] at hx
      exact le_trans (cmax x hx) (le_max_left _ _)
    · intro x hx
      rcases List.mem_append.mp hx with hx | hx
      · exact le_trans (bmax x hx) (le_max_left _ _)
      · rw [List.mem_singleton] at hx
        subst hx
        exact le_max_right _ _

theorem ckInv_finish (batchSize : Nat) (ck0 : Int) (s : DialogState)
    (h : CkInv batchSize ck0 s) :
    ∀ t, t <+: (finishDialog s).trace → refetchCommitted ck0 t ≤ batchSize := by
  obtain ⟨prefixes, full, buf, cmax, bmax, unck⟩ := h
  rw [finishDialog]
  by_cases hb : s.batchData ≠ []
  · simp only [if_pos hb]
    have hpos : 0 < s.uncheckpointedCount + s.batchData.length := by
      have : s.batchData.length ≠ 0 := by
        intro h0
        exact hb (List.length_eq_zero.mp h0)
      omega
    simp only [if_pos hpos]
    intro t ht
    have htr : s.trace ++ [Event.commit s.batchData] ++
          [Event.checkpoint s.runningMaxId
            (s.uncheckpointedCount + s.batchData.length)]
        = (s.trace ++ [Event.commit s.batchData]) ++
          [Event.checkpoint s.runningMaxId
            (s.uncheckpointedCount + s.batchData.length)] := rfl
    rw [htr] at ht
    rcases prefix_snoc_iff.mp ht with ht | rfl
    · rcases prefix_snoc_iff.mp ht with ht | rfl
      · exact prefixes t ht
      · rw [refetch_commit, full, Nat.zero_add]
        exact le_trans (List.countP_le_length _) (le_of_lt buf)
    · rw [refetch_ck_zero]
      · exact Nat.zero_le _
      · intro x hx
        simp only [committedOf_append, committedOf, List.append_nil,
          List.mem_append] at hx
        rcases hx with hx | hx
        · exact cmax x hx
        · exact bmax x hx
  · simp only [if_neg hb]
    rw [unck]
    simp only [lt_irrefl, if_false]
    exact prefixes

/-- C1: after a crash between a batch commit and its checkpoint advance, the
next run re-fetches at most one batch's worth of already-committed items
(under the default checkpoint interval 1: at every crash point of the trace,
the committed rows above the stored checkpoint number at most `batch_size`),
and message writes are `INSERT OR REPLACE` upserts keyed by the composite
primary key `(id, chat_id)`: re-ingesting a batch leaves exactly one row per
ingested key and a table with unique keys keeps them unique. -/
theorem resume_refetch_no_duplicates (batchSize : Nat) (hbs : 1 ≤ batchSize)
    (store0 : List MsgRow) (ck0 : Int) (msgs : List MsgRow) :
    (∀ t, t <+: (backupDialog batchSize 1 store0 ck0 msgs).trace →
        refetchCommitted ck0 t ≤ batchSize) ∧
    (∀ (table batch : List MsgRow) (m : MsgRow), m ∈ batch →
        keyCount (insert_messages_batch table batch) m.key = 1) ∧
    (∀ (table batch : List MsgRow) (k : Int × Int), keyCount table k ≤ 1 →
        keyCount (insert_messages_batch table batch) k ≤ 1) := by
  refine ⟨?_, ?_, ?_⟩
  · rw [backupDialog]
    exact ckInv_finish batchSize ck0 _
      (foldl_inv (CkInv batchSize ck0) (processOne batchSize 1)
        (fun s a hs => ckInv_processOne batchSize ck0 s a hs) msgs _
        (ckInv_init batchSize hbs store0 ck0))
  · intro table batch m hm
    rw [keyCount_batch, if_pos (List.mem_map_of_mem MsgRow.key hm)]
  · intro table batch k hk
    rw [keyCount_batch]
    by_cases h : k ∈ batch.map MsgRow.key
    · rw [if_pos h]
    · rw [if_neg h]
      exact hk

/-- C1 witness: crashing right after the first commit of a concrete run
(batch size 2, interval 1) leaves at most one batch of committed rows above
the stored checkpoint, and re-ingesting a batch leaves exactly one row for an
ingested key. -/
theorem resume_refetch_no_duplicates_witness :
    refetchCommitted 0
        [Event.fetch ⟨1, 10, "a"⟩, Event.fetch ⟨2, 10, "b"⟩,
         Event.commit [⟨1, 10, "a"⟩, ⟨2, 10, "b"⟩]] ≤ 2 ∧
      keyCount (insert_messages_batch [⟨1, 10, "a"⟩] [⟨1, 10, "a"⟩])
        (⟨1, 10, "a"⟩ : MsgRow).key = 1 :=
  ⟨(resume_refetch_no_duplicates 2 (by decide) [] 0
      [⟨1, 10, "a"⟩, ⟨2, 10, "b"⟩, ⟨3, 10, "c"⟩]).1
      [Event.fetch ⟨1, 10, "a"⟩, Event.fetch ⟨2, 10, "b"⟩,
       Event.commit [⟨1, 10, "a"⟩, ⟨2, 10, "b"⟩]]
      ⟨[Event.checkpoint 2 2, Event.fetch ⟨3, 10, "c"⟩,
        Event.commit [⟨3, 10, "c"⟩], Event.checkpoint 3 1], rfl⟩,
   (resume_refetch_no_duplicates 2 (by decide) [] 0 []).2.1
      [⟨1, 10, "a"⟩] [⟨1, 10, "a"⟩] ⟨1, 10, "a"⟩ (by decide)⟩

/-! ## Lemmas for the edit/deletion reconciliation -/

/-- The reconciliation fold over the snapshotted rows. -/
def syncFoldSteps (chat_id : Int) (fetch : Int → Option RMsg)
    (snapshot db : List LMsg) : List LMsg :=
  snapshot.foldl
    (fun acc m => syncStep chat_id acc m.id m.edit_date (fetch m.id)) db

theorem sync_deletions_eq_fold (chat_id : Int) (db : List LMsg)
    (fetch : Int → Option RMsg) :
    sync_deletions_and_edits chat_id db fetch =
      syncFoldSteps chat_id fetch
        (db.filter fun m => decide (m.chat_id = chat_id)) db := rfl

theorem syncFoldSteps_cons (chat_id : Int) (fetch : Int → Option RMsg)
    (a : LMsg) (t db : List LMsg) :
    syncFoldSteps chat_id fetch (a :: t) db =
      syncFoldSteps chat_id fetch t
        (syncStep chat_id db a.id a.edit_date (fetch a.id)) := rfl

theorem syncFoldSteps_append (chat_id : Int) (fetch : Int → Option RMsg)
    (s₁ s₂ db : List LMsg) :
    syncFoldSteps chat_id fetch (s₁ ++ s₂) db =
      syncFoldSteps chat_id fetch s₂ (syncFoldSteps chat_id fetch s₁ db) := by
  simp [syncFoldSteps, List.foldl_append]

theorem syncStep_mem_of_ne (chat_id : Int) (db : List LMsg) (msgId : Int)
    (le : Option String) (rm : Option RMsg) (x : LMsg)
    (hx : ¬(x.chat_id = chat_id ∧ x.id = msgId)) :
    x ∈ syncStep chat_id db msgId le rm ↔ x ∈ db := by
  rcases rm with _ | ⟨msg, redit⟩
  · simp only [syncStep, List.mem_filter]
    constructor
    · intro h
      exact h.1
    · intro h
      refine ⟨h, ?_⟩
      simp only [decide_eq_true_eq]
      exact hx
  · rcases redit with _ | re
    · exact Iff.rfl
    · simp only [syncStep]
      by_cases hcond : re ≠ strOfOpt le
      · rw [if_pos hcond]
        constructor
        · intro hm
          rw [List.mem_map] at hm
          obtain ⟨y, hy, hyx⟩ := hm
          by_cases hyk : y.chat_id = chat_id ∧ y.id = msgId
          · rw [if_pos hyk] at hyx
            exfalso
            apply hx
            rw [← hyx]
            exact ⟨hyk.1, hyk.2⟩
          · rw [if_neg hyk] at hyx
            rw [← hyx]
            exact hy
        · intro hy
          rw [List.mem_map]
          exact ⟨x, hy, if_neg hx⟩
      · rw [if_neg hcond]

theorem syncStep_key_sub (chat_id : Int) (db : List LMsg) (msgId : Int)
    (le : Option String) (rm : Option RMsg) (x : LMsg)
    (hx : x ∈ syncStep chat_id db msgId le rm) :
    ∃ y ∈ db, y.id = x.id ∧ y.chat_id = x.chat_id := by
  rcases rm with _ | ⟨msg, redit⟩
  · exact ⟨x, (List.mem_filter.mp hx).1, rfl, rfl⟩
  · rcases redit with _ | re
    · exact ⟨x, hx, rfl, rfl⟩
    · simp only [syncStep] at hx
      by_cases hcond : re ≠ strOfOpt le
      · rw [if_pos hcond] at hx
        rw [List.mem_map] at hx
        obtain ⟨y, hy, hyx⟩ := hx
        by_cases hyk : y.chat_id = chat_id ∧ y.id = msgId
        · rw [if_pos hyk] at hyx
          exact ⟨y, hy, by rw [← hyx], by rw [← hyx]⟩
        · rw [if_neg hyk] at hyx
          rw [← hyx]
          exact ⟨y, hy, rfl, rfl⟩
      · rw [if_neg hcond] at hx
        exact ⟨x, hx, rfl, rfl⟩

theorem syncStep_none_no_key (chat_id : Int) (db : List LMsg) (msgId : Int)
    (le : Option String) (x : LMsg)
    (hx : x ∈ syncStep chat_id db msgId le none) :
    ¬(x.chat_id = chat_id ∧ x.id = msgId) := by
  have h := (List.mem_filter.mp hx).2
  simp only [decide_eq_true_eq] at h
  exact h

theorem syncStep_update_mem (chat_id : Int) (db : List LMsg) (m : LMsg)
    (hm : m ∈ db) (hc : m.chat_id = chat_id) (r : RMsg) (re : String)
    (hre : r.edit_date = some re) (hdiff : re ≠ strOfOpt m.edit_date) :
    { m with text := r.message, edit_date := some re }
      ∈ syncStep chat_id db m.id m.edit_date (some r) := by
  rcases r with ⟨msg, redit⟩
  cases hre
  simp only [syncStep]
  rw [if_pos hdiff, List.mem_map]
  exact ⟨m, hm, by rw [if_pos ⟨hc, rfl⟩]⟩

theorem syncStep_unchanged (chat_id : Int) (db : List LMsg) (msgId : Int)
    (le : Option String) (r : RMsg)
    (hsame : ∀ re, r.edit_date = some re → re = strOfOpt le) :
    syncStep chat_id db msgId le (some r) = db := by
  rcases r with ⟨msg, _ | re⟩
  · rfl
  · simp only [syncStep]
    rw [if_neg (fun h => h (hsame re rfl))]

theorem syncFold_mem_of_avoid (chat_id : Int) (fetch : Int → Option RMsg)
    (snapshot : List LMsg) :
    ∀ (db : List LMsg) (x : LMsg),
      (∀ m ∈ snapshot, ¬(x.chat_id = chat_id ∧ x.id = m.id)) →
      (x ∈ syncFoldSteps chat_id fetch snapshot db ↔ x ∈ db) := by
  induction snapshot with
  | nil => intro db x _; exact Iff.rfl
  | cons a t ih =>
    intro db x h
    rw [syncFoldSteps_cons,
      ih _ x (fun m hm => h m (List.mem_cons_of_mem a hm)),
      syncStep_mem_of_ne chat_id db a.id a.edit_date (fetch a.id) x
        (h a (List.mem_cons_self a t))]

theorem syncFold_no_key (chat_id : Int) (fetch : Int → Option RMsg)
    (snapshot : List LMsg) :
    ∀ (db : List LMsg) (i c : Int),
      (∀ y ∈ db, ¬(y.chat_id = c ∧ y.id = i)) →
      ∀ x ∈ syncFoldSteps chat_id fetch snapshot db,
        ¬(x.chat_id = c ∧ x.id = i) := by
  induction snapshot with
  | nil => intro db i c h x hx; exact h x hx
  | cons a t ih =>
    intro db i c h x hx
    rw [syncFoldSteps_cons] at hx
    refine ih _ i c ?_ x hx
    intro y hy hk
    obtain ⟨z, hz, hz1, hz2⟩ := syncStep_key_sub chat_id db a.id a.edit_date
      (fetch a.id) y hy
    exact h z hz ⟨hz2.trans hk.1, hz1.trans hk.2⟩

/-- C9: the edit/deletion reconciliation pass (over a table with unique
`(id, chat_id)` keys): a `None` remote result deletes the local item, a
non-null remote edit timestamp differing from the locally stored one
overwrites text and edit timestamp, an unchanged (or absent) remote edit
timestamp leaves the item untouched, and other conversations' items are
never affected. -/
theorem sync_deletions_and_edits_spec (chat_id : Int) (db : List LMsg)
    (fetch : Int → Option RMsg)
    (hnd : (db.map fun m => (m.id, m.chat_id)).Nodup) :
    (∀ m ∈ db, m.chat_id = chat_id → fetch m.id = none →
        ∀ x ∈ sync_deletions_and_edits chat_id db fetch,
          ¬(x.chat_id = chat_id ∧ x.id = m.id)) ∧
    (∀ m ∈ db, m.chat_id = chat_id → ∀ r re, fetch m.id = some r →
        r.edit_date = some re → re ≠ strOfOpt m.edit_date →
        { m with text := r.message, edit_date := some re }
          ∈ sync_deletions_and_edits chat_id db fetch) ∧
    (∀ m ∈ db, m.chat_id = chat_id → ∀ r, fetch m.id = some r →
        (∀ re, r.edit_date = some re → re = strOfOpt m.edit_date) →
        m ∈ sync_deletions_and_edits chat_id db fetch) ∧
    (∀ m ∈ db, m.chat_id ≠ chat_id →
        m ∈ sync_deletions_and_edits chat_id db fetch) := by
  have hdbnd : db.Nodup := hnd.of_map
  have hkeyinj : ∀ x ∈ db, ∀ y ∈ db, x.id = y.id → x.chat_id = y.chat_id →
      x = y := by
    intro x hx y hy h1 h2
    refine List.inj_on_of_nodup_map hnd hx hy ?_
    show (x.id, x.chat_id) = (y.id, y.chat_id)
    rw [h1, h2]
  have hsnd : (db.filter fun m => decide (m.chat_id = chat_id)).Nodup :=
    hdbnd.filter _
  -- For a snapshotted row m decomposing the snapshot as s₁ ++ m :: s₂, no
  -- other snapshot row shares m's id.
  have hdistinct : ∀ (m : LMsg), m ∈ db → m.chat_id = chat_id →
      ∀ s₁ s₂, (db.filter fun x => decide (x.chat_id = chat_id))
          = s₁ ++ m :: s₂ →
      ∀ m', (m' ∈ s₁ ∨ m' ∈ s₂) → m'.id ≠ m.id := by
    intro m hmdb _ s₁ s₂ hdecomp m' hm' hid
    have hnd2 := hdecomp ▸ hsnd
    have hdisj := List.disjoint_of_nodup_append hnd2
    have hm1 : m ∉ s₁ := fun hh => hdisj hh (List.mem_cons_self m s₂)
    have hm2 : m ∉ s₂ := (List.nodup_cons.mp (List.nodup_append.mp hnd2).2.1).1
    have hm'snap : m' ∈ db.filter fun x => decide (x.chat_id = chat_id) := by
      rw [hdecomp]
      rcases hm' with hm' | hm'
      · exact List.mem_append_left _ hm'
      · exact List.mem_append_right _ (List.mem_cons_of_mem m hm')
    have hm'db : m' ∈ db := (List.mem_filter.mp hm'snap).1
    have hm'chat : m'.chat_id = chat_id := by
      simpa using (List.mem_filter.mp hm'snap).2
    have hmsnap : m ∈ db.filter fun x => decide (x.chat_id = chat_id) := by
      rw [hdecomp]
      exact List.mem_append_right _ (List.mem_cons_self m s₂)
    have hmchat : m.chat_id = chat_id := by
      simpa using (List.mem_filter.mp hmsnap).2
    have heq : m' = m := hkeyinj m' hm'db m hmdb hid (hm'chat.trans hmchat.symm)
    rcases hm' with hm' | hm'
    · exact hm1 (heq ▸ hm')
    · exact hm2 (heq ▸ hm')
  refine ⟨?_, ?_, ?_, ?_⟩
  · -- deletion
    intro m hmdb hmchat hfetch x hx
    rw [sync_deletions_eq_fold] at hx
    have hmsnap : m ∈ db.filter fun x => decide (x.chat_id = chat_id) :=
      List.mem_filter.mpr ⟨hmdb, by simpa using hmchat⟩
    obtain ⟨s₁, s₂, hdecomp⟩ := List.append_of_mem hmsnap
    rw [hdecomp, syncFoldSteps_append, syncFoldSteps_cons, hfetch] at hx
    refine syncFold_no_key chat_id fetch s₂ _ m.id chat_id ?_ x hx
    intro y hy
    exact syncStep_none_no_key chat_id _ m.id m.edit_date y hy
  · -- edit overwrite
    intro m hmdb hmchat r re hfetch hre hdiff
    rw [sync_deletions_eq_fold]
    have hmsnap : m ∈ db.filter fun x => decide (x.chat_id = chat_id) :=
      List.mem_filter.mpr ⟨hmdb, by simpa using hmchat⟩
    obtain ⟨s₁, s₂, hdecomp⟩ := List.append_of_mem hmsnap
    rw [hdecomp, syncFoldSteps_append, syncFoldSteps_cons, hfetch]
    have hne := hdistinct m hmdb hmchat s₁ s₂ hdecomp
    have hm_in : m ∈ syncFoldSteps chat_id fetch s₁ db := by
      rw [syncFold_mem_of_avoid chat_id fetch s₁ db m
        (fun m' hm' hk => hne m' (Or.inl hm') hk.2.symm)]
      exact hmdb
    refine (syncFold_mem_of_avoid chat_id fetch s₂ _ _ ?_).mpr ?_
    · intro m' hm' hk
      exact hne m' (Or.inr hm') hk.2.symm
    · exact syncStep_update_mem chat_id _ m hm_in hmchat r re hre hdiff
  · -- unchanged
    intro m hmdb hmchat r hfetch hsame
    rw [sync_deletions_eq_fold]
    have hmsnap : m ∈ db.filter fun x => decide (x.chat_id = chat_id) :=
      List.mem_filter.mpr ⟨hmdb, by simpa using hmchat⟩
    obtain ⟨s₁, s₂, hdecomp⟩ := List.append_of_mem hmsnap
    rw [hdecomp, syncFoldSteps_append, syncFoldSteps_cons, hfetch,
      syncStep_unchanged chat_id _ m.id m.edit_date r hsame]
    have hne := hdistinct m hmdb hmchat s₁ s₂ hdecomp
    have hm_in : m ∈ syncFoldSteps chat_id fetch s₁ db := by
      rw [syncFold_mem_of_avoid chat_id fetch s₁ db m
        (fun m' hm' hk => hne m' (Or.inl hm') hk.2.symm)]
      exact hmdb
    exact (syncFold_mem_of_avoid chat_id fetch s₂ _ _
      (fun m' hm' hk => hne m' (Or.inr hm') hk.2.symm)).mpr hm_in
  · -- other conversations
    intro m hmdb hmchat
    rw [sync_deletions_eq_fold]
    exact (syncFold_mem_of_avoid chat_id fetch _ db m
      (fun m' _ hk => hmchat hk.1)).mpr hmdb

/-- C9 witness: with one local item carrying no edit timestamp and a remote
state edited at "2026-01-01", the item's text and edit timestamp are
overwritten. -/
theorem sync_deletions_and_edits_spec_witness :
    ({ id := 1, chat_id := 5, text := "new", edit_date := some "2026-01-01" }
        : LMsg)
      ∈ sync_deletions_and_edits 5 [⟨1, 5, "old", none⟩]
        (fun _ => some ⟨"new", some "2026-01-01"⟩) :=
  (sync_deletions_and_edits_spec 5 [⟨1, 5, "old", none⟩]
      (fun _ => some ⟨"new", some "2026-01-01"⟩) (by decide)).2.1
    ⟨1, 5, "old", none⟩ (by decide) rfl ⟨"new", some "2026-01-01"⟩
    "2026-01-01" rfl rfl (by decide)

end TelegramArchive
